import Mathlib

/-!
Verification development for the vocabulary-tree CBIR engine (src/cbir.py).

The embedding mirrors the `CBIR` class: the vocabulary tree built by `fit`
(hierarchical k-means over a clustering oracle), the directed graph with its
per-node attribute dictionaries (image visit counts and the idf weight "w"),
feature routing (`propagate_feature`), the inverted index (`propagate`,
`index`), encoding (`encode`), scoring (`score`) and retrieval (`retrieve`).

Numeric conventions: numpy floats are modelled by ℚ.  Routing compares
`np.linalg.norm` values; we store squared Euclidean distances, and the
comparisons agree because squaring is strictly monotone on nonnegatives
(the connection to the real Euclidean norm is made explicit through
`Real.sqrt` in the routing theorems).  `np.log` applied when the idf weight
is stored is kept as the stored ratio plus a `Real.log` interpretation,
since the logarithm is determined by its argument.
-/

namespace CBIR

/-- Association-list lookup (python dict lookup by key). -/
def alookup {α : Type} : List (Nat × α) → Nat → Option α
  | [], _ => none
  | (k2, v) :: rest, k => if k2 = k then some v else alookup rest k

/-- Association-list update: overwrite an existing key in place, append a new
key at the end — the insertion-order semantics of a python dict. -/
def aset {α : Type} : List (Nat × α) → Nat → α → List (Nat × α)
  | [], k, v => [(k, v)]
  | (k2, v2) :: rest, k, v =>
    if k2 = k then (k, v) :: rest else (k2, v2) :: aset rest k v

/-- Record a node id in the graph's node list unless already present
(networkx `add_node` / the node-adding side of `add_edge`). -/
def pushId (l : List Nat) (n : Nat) : List Nat :=
  if n ∈ l then l else l ++ [n]

/-- A node's stored value in `self.nodes`: the root stores `np.mean(features)`
over the whole 2-D feature array, which collapses to a single scalar, while
every child stores its cluster-center vector. -/
inductive NVal where
  | scalar (x : ℚ)
  | vec (v : List ℚ)
deriving DecidableEq

/-- A feature vector (one row of the descriptor array). -/
abbrev Feat := List ℚ

/-- The mutable state of a `CBIR` object: `self.nodes`, the networkx digraph
(its adjacency lists and node-insertion order), the per-node attribute
dictionaries split into the image-visit part and the "w" attribute, and the
shared id counter `self._current_index`.  The "w" attribute is stored as the
ratio `N / N_i`; the source stores `np.log` of it (see `nodeWeight`).
`depthOf` and `nFeatOf` are bookkeeping of the arguments `current_depth` and
`len(features)` with which `fit` processed each node; the source passes them
through the recursion without storing them. -/
structure St where
  nodesVal : List (Nat × NVal)
  adjList : List (Nat × List Nat)
  order : List Nat
  visitsL : List (Nat × List (Nat × Nat))
  wList : List (Nat × ℚ)
  depthOf : List (Nat × Nat)
  nFeatOf : List (Nat × Nat)
  currentIndex : Nat

/-- The state of a freshly constructed `CBIR` object. -/
def emptySt : St :=
  { nodesVal := [], adjList := [], order := [], visitsL := [], wList := [],
    depthOf := [], nFeatOf := [], currentIndex := 0 }

/-- Children of a node in the digraph (`self.graph[node]`, in edge-insertion
order, which is how networkx iterates successors). -/
def adjOf (st : St) (n : Nat) : List Nat :=
  (alookup st.adjList n).getD []

/-- A node's visit dictionary: image id ↦ visit count. -/
def visitDict (st : St) (n : Nat) : List (Nat × Nat) :=
  (alookup st.visitsL n).getD []

/-- The visit count a node records for an image (0 when absent). -/
def visitCount (st : St) (n img : Nat) : Nat :=
  (alookup (visitDict st n) img).getD 0

/-- The stored "w" attribute of a node, as the ratio the source takes the
logarithm of; `none` means the attribute was never assigned. -/
def wOf (st : St) (n : Nat) : Option ℚ :=
  alookup st.wList n

/-- The idf weight of a node as the source's float value: `np.log(N / N_i)`
when assigned, and the default 1 used by `encode` otherwise.  Interpretation
only — the executable state keeps the ratio. -/
noncomputable def nodeWeight (st : St) (n : Nat) : ℝ :=
  match wOf st n with
  | some r => Real.log (r : ℝ)
  | none => 1

/-- The clustering oracle (`MiniBatchKMeans`): given the feature rows and the
number of clusters it returns the cluster centers and the per-row labels.
Contract (spec section 6): `k` centers, every label in `[0, k)`, one label
per row. -/
abbrev Oracle := List Feat → Nat → List Feat × List Nat

/-- Group the feature rows by their cluster label (`children[label[i]]
.append(features[i])` in the source). -/
def groupsOf (labels : List Nat) (k : Nat) (features : List Feat) :
    List (List Feat) :=
  (List.range k).map fun i =>
    ((features.zip labels).filter fun p => p.2 == i).map fun p => p.1

/-- The node-creating prefix of `fit`: `self.nodes[node] = root;
self.graph.add_node(node)`, together with the bookkeeping of the recursion
arguments `current_depth` and `len(features)`. -/
def stAddNode (st : St) (n : Nat) (v : NVal) (cd k : Nat) : St :=
  { st with
    nodesVal := aset st.nodesVal n v
    order := pushId st.order n
    depthOf := aset st.depthOf n cd
    nFeatOf := aset st.nFeatOf n k }

/-- The edge-creating step of `fit`'s loop: `self.graph.add_edge(node,
child)`.  `add_edge` inserts both endpoints into the node list when absent
and appends `child` to `node`'s successor list.  (`self.tree` mirrors this
adjacency and is never read elsewhere, so it is not modelled separately.) -/
def stAddChild (st : St) (parent child : Nat) : St :=
  { st with
    adjList := aset st.adjList parent (adjOf st parent ++ [child])
    order := pushId (pushId st.order parent) child }

/-- The recursive body of `fit`.  `fuel` bounds the recursion depth; every
recursive call is made with `current_depth + 1`, and the leaf test stops at
`current_depth ≥ depth`, so with `fuel ≥ depth - cd` the fuel cutoff is never
reached and the function agrees with the source's recursion. -/
def fitGo (o : Oracle) (nb dep : Nat) :
    Nat → List Feat → Nat → NVal → Nat → St → St
  | 0, features, node, root, cd, st => stAddNode st node root cd features.length
  | fuel + 1, features, node, root, cd, st =>
    let st1 := stAddNode st node root cd features.length
    if dep ≤ cd ∨ features.length < nb then st1
    else
      let res := o features nb
      ((groupsOf res.2 nb features).zip res.1).foldl
        (fun st2 pr =>
          fitGo o nb dep fuel pr.1 (st2.currentIndex + 1) (NVal.vec pr.2)
            (cd + 1)
            (stAddChild { st2 with currentIndex := st2.currentIndex + 1 }
              node (st2.currentIndex + 1)))
        st1

/-- `np.mean` of the whole 2-D feature array: the mean of all entries,
collapsed to one scalar (this is what the source stores for the root). -/
def meanAll (features : List Feat) : ℚ :=
  (features.map List.sum).sum / ((features.map List.length).sum : ℚ)

/-- `fit` called on a fresh object with a given bulk feature set: the root is
node 0, its stored value is the scalar mean, `current_depth` starts at 0 and
the shared counter at 0. -/
def fit (o : Oracle) (nb dep : Nat) (features : List Feat) : St :=
  fitGo o nb dep dep features 0 (NVal.scalar (meanAll features)) 0 emptySt

/-- `self.nodes[child] - feature` with numpy broadcasting: a stored vector
subtracts componentwise, a stored scalar broadcasts over the feature. -/
def nvalSub (v : NVal) (f : Feat) : List ℚ :=
  match v with
  | NVal.scalar x => f.map fun t => x - t
  | NVal.vec w => List.zipWith (fun a b => a - b) w f

/-- The square of `np.linalg.norm([self.nodes[child] - feature])` — the
Frobenius norm of the 1×d array, i.e. the Euclidean norm of the difference.
Comparisons of squared distances and of distances agree because squaring is
strictly monotone on nonnegatives; the routing theorems state the link to
the Euclidean norm through `Real.sqrt`. -/
def distSq (st : St) (child : Nat) (f : Feat) : ℚ :=
  ((nvalSub ((alookup st.nodesVal child).getD (NVal.vec [])) f).map
    fun t => t * t).sum

/-- The comparison `distance < min_dist`, with `none` playing the part of the
initial `float("inf")`. -/
def better (m : Option ℚ) (d : ℚ) : Bool :=
  match m with
  | none => true
  | some mv => decide (d < mv)

/-- The inner `for child in self.graph[node]` loop of `propagate_feature`:
carries the running `(min_dist, node, path)` and appends every scanned child
to the path. -/
def scanChildren (st : St) (f : Feat) :
    List Nat → Option ℚ → Nat → List Nat → Option ℚ × Nat × List Nat
  | [], m, node, path => (m, node, path)
  | c :: rest, m, node, path =>
    let d := distSq st c f
    if better m d then scanChildren st f rest (some d) c (path ++ [c])
    else scanChildren st f rest m node (path ++ [c])

/-- The selection part of the child scan, without the path bookkeeping. -/
def selGo (st : St) (f : Feat) :
    List Nat → Option ℚ → Nat → Option ℚ × Nat
  | [], m, node => (m, node)
  | c :: rest, m, node =>
    let d := distSq st c f
    if better m d then selGo st f rest (some d) c
    else selGo st f rest m node

/-- The `while self.graph.out_degree(node)` loop of `propagate_feature`,
returning the final `node` together with the accumulated path.  `fuel` bounds
the number of iterations; on a tree every chosen child has a strictly larger
id than its parent, so `st.order.length` iterations always suffice (the
routing lemmas prove the loop exits at a childless node under that bound). -/
def routeGo (st : St) (f : Feat) : Nat → Nat → List Nat → Nat × List Nat
  | 0, node, path => (node, path)
  | fuel + 1, node, path =>
    match adjOf st node with
    | [] => (node, path)
    | c :: rest =>
      let r := scanChildren st f (c :: rest) none node path
      routeGo st f fuel r.2.1 r.2.2

/-- `propagate_feature(feature, node)`: the returned path, starting as
`[node]`. -/
def propagate_feature (st : St) (f : Feat) (node : Nat) : List Nat :=
  (routeGo st f st.order.length node [node]).2

/-- The value of the loop variable `node` when `propagate_feature` returns —
the endpoint of the greedy descent. -/
def routeEnd (st : St) (f : Feat) (node : Nat) : Nat :=
  (routeGo st f st.order.length node [node]).1

/-- One visit-count increment at a node: create the image's entry with value
1 when absent, add 1 otherwise. -/
def incrVisit (st : St) (n img : Nat) : St :=
  let d := visitDict st n
  let d2 :=
    match alookup d img with
    | none => d ++ [(img, 1)]
    | some c => aset d img (c + 1)
  { st with visitsL := aset st.visitsL n d2 }

/-- An image as the indexing pipeline sees it: the stable image id returned
by `dataset.get_image_id` together with the extracted feature rows.  The
`dataset` module is an external collaborator (not in the repository sources);
per the spec it supplies a stable id per image and the feature rows. -/
abbrev Image := Nat × List Feat

/-- `propagate(image_path)`: route every feature down the tree and increment
the image's visit count at every node id in the returned path. -/
def propagate (st : St) (im : Image) : St :=
  im.2.foldl
    (fun st2 f =>
      (propagate_feature st2 f 0).foldl (fun st3 n => incrVisit st3 n im.1) st2)
    st

/-- `index()` modelled on its sequential branch (`parallel=False`): propagate
every corpus image, then for every node with a nonempty attribute dictionary
store the weight; the source stores `np.log(N / N_i)` and we store the ratio
(see `nodeWeight`).  Modelled from the spec where the source leans on the
missing `dataset` module: `len(self.dataset)` is the total number of corpus
images and `self.dataset.all_images` enumerates the corpus, so both are the
length and the elements of the `corpus` argument.  The `parallel=True`
branch hands `propagate` to a fire-and-forget multiprocessing pool, which is
outside a shallow embedding.

`weightStep` is the body of the weight loop for one node: `N_i` is the number
of entries of the node's attribute dictionary (`len(files)` — the number of
distinct images recorded, not the sum of their counts), and a weight is
stored only when it is nonzero. -/
def weightStep (N : ℚ) (s : St) (n : Nat) : St :=
  let ni := (visitDict s n).length
  if ni ≠ 0 then { s with wList := aset s.wList n (N / (ni : ℚ)) } else s

/-- The sequential `index()` itself: propagate the whole corpus, then run the
weight loop over every graph node. -/
def index (corpus : List Image) (st : St) : St :=
  let st1 := corpus.foldl (fun s im => propagate s im) st
  st1.order.foldl (weightStep (corpus.length : ℚ)) st1

/-- Sum of absolute values: `np.linalg.norm(v, ord=1)`. -/
def l1normQ (v : List ℚ) : ℚ :=
  (v.map fun t => |t|).sum

/-- `np.array(self.graph.nodes(data=image_id, default=0))[:, 1]`: the
image's visit count at every graph node, in node-insertion order (which for
a fitted tree is ascending node id). -/
def tfidf (st : St) (img : Nat) : List ℚ :=
  st.order.map fun n => (visitCount st n img : ℚ)

/-- `encode(image_id, return_graph=False)`: the tfidf vector divided by its
L1 norm.  (The `return_graph=True` branch only draws a subgraph and is
visualization, out of scope.)  The weights row read just above the division
is multiplied in a commented-out factor and therefore unused.  In the source
an all-zero vector is divided by a zero norm, which numpy turns into NaN
entries; in ℚ the division returns 0 — the zero-norm divisor itself is what
claim C4 is about. -/
def encode (st : St) (img : Nat) : List ℚ :=
  let t := tfidf st img
  t.map fun x => x / l1normQ t

/-- The total number of visits an image has recorded over the graph's nodes
(the exact value of the L1 norm `encode` divides by). -/
def totalVisits (st : St) (img : Nat) : Nat :=
  (st.order.map fun n => visitCount st n img).sum

/-- `score(first, second)`: `2 - 2 * np.sum(d * q)` on the two encoded
vectors, with the image paths already resolved to their stable ids. -/
def score (st : St) (dbImg qImg : Nat) : ℚ :=
  2 - 2 * (List.zipWith (fun a b => a * b) (encode st dbImg) (encode st qImg)).sum

/-- Stable insertion into a score-ascending list (the comparison python's
stable `sorted(..., key=item[1])` performs). -/
def insScore (x : Nat × ℚ) : List (Nat × ℚ) → List (Nat × ℚ)
  | [] => [x]
  | y :: ys => if y.2 ≤ x.2 then y :: insScore x ys else x :: y :: ys

/-- Stable sort of the `(image id, score)` pairs by ascending score. -/
def sortScores (l : List (Nat × ℚ)) : List (Nat × ℚ) :=
  l.foldr insScore []

/-- `retrieve(query_image_path)`: propagate the query into the shared index
(a deliberate side effect), score every corpus image against the query and
return the state together with the score-ascending ranking. -/
def retrieve (st : St) (query : Image) (corpus : List Image) :
    St × List (Nat × ℚ) :=
  let st1 := propagate st query
  (st1, sortScores (corpus.map fun im => (im.1, score st1 im.1 query.1)))

/-- A concrete conforming clustering oracle used for the concrete scenarios:
on the 4-row bulk set it splits one row from three, on the 3-row subset it
splits one row from two; it always returns two centers. -/
def oracleEx : Oracle := fun fs _ =>
  if fs.length = 4 then ([[0], [11]], [0, 1, 1, 1])
  else ([[10], [23 / 2]], [0, 1, 1])

/-- A concrete fitted tree: branching 2, depth 2, four 1-dimensional
features.  Node 0 has children 1 (a leaf holding one feature) and 2;
node 2 has leaf children 3 and 4. -/
def gEx : St :=
  fit oracleEx 2 2 [[0], [10], [11], [12]]

/-- The example tree after propagating one image (id 7) with a single
feature: nodes 0, 1 and 2 each record one visit of image 7. -/
def stEx2 : St :=
  propagate gEx (7, [[0]])

/-- Equality of everything that makes up the tree itself: nodes, edges,
centroid values, the build bookkeeping and the id counter. -/
def treeEq (a b : St) : Prop :=
  a.adjList = b.adjList ∧ a.order = b.order ∧ a.nodesVal = b.nodesVal ∧
  a.depthOf = b.depthOf ∧ a.nFeatOf = b.nFeatOf ∧ a.currentIndex = b.currentIndex

/-- How one `fit` call transforms the state, seen from outside: it consumes a
contiguous block of fresh ids right above the counter and appends exactly
those ids to the node list (after registering its own node), existing ids
stay at most the counter, untouched nodes keep their adjacency and
bookkeeping, ids above the final counter have no adjacency yet, and every
new edge points from a lower id to a strictly larger fresh id. -/
def ShapeOk (node : Nat) (st st2 : St) : Prop :=
  (∃ k, st2.currentIndex = st.currentIndex + k ∧
    st2.order = pushId st.order node ++ List.range' (st.currentIndex + 1) k) ∧
  (∀ i ∈ st2.order, i ≤ st2.currentIndex) ∧
  (∀ m, m ≤ st.currentIndex → m ≠ node →
    adjOf st2 m = adjOf st m ∧ alookup st2.depthOf m = alookup st.depthOf m ∧
    alookup st2.nFeatOf m = alookup st.nFeatOf m) ∧
  (∀ m, st2.currentIndex < m → adjOf st2 m = adjOf st m) ∧
  (∀ m c, c ∈ adjOf st2 m → c ∈ adjOf st m ∨
    (st.currentIndex < c ∧ c ≤ st2.currentIndex ∧ m < c)) ∧
  st2.visitsL = st.visitsL ∧ st2.wList = st.wList

/-- The per-node leaf/branch contract of `fit`: the node records the depth
and feature count it was processed with, its recorded depth never exceeds
the configured maximum, and it is childless exactly when the leaf test
`current_depth ≥ depth ∨ len(features) < n_branches` fired — otherwise it
has exactly `n_branches` children. -/
def NodeOk (nb dep : Nat) (st : St) (m : Nat) : Prop :=
  ∃ d k, alookup st.depthOf m = some d ∧ alookup st.nFeatOf m = some k ∧
    d ≤ dep ∧
    (if dep ≤ d ∨ k < nb then adjOf st m = [] else (adjOf st m).length = nb)

theorem alookup_aset_self {α : Type} (l : List (Nat × α)) (k : Nat) (v : α) :
    alookup (aset l k v) k = some v := by
  induction l with
  | nil => simp [aset, alookup]
  | cons p rest ih =>
    by_cases h : p.1 = k
    · simp [aset, h, alookup]
    · simp [aset, h, alookup, ih]

theorem alookup_aset_ne {α : Type} (l : List (Nat × α)) (k j : Nat) (v : α)
    (h : k ≠ j) : alookup (aset l k v) j = alookup l j := by
  induction l with
  | nil => simp [aset, alookup, h]
  | cons p rest ih =>
    by_cases h2 : p.1 = k
    · simp [aset, h2, alookup, h]
    · simp [aset, h2, alookup, ih]

theorem alookup_mem {α : Type} {l : List (Nat × α)} {k : Nat} {v : α}
    (h : alookup l k = some v) : (k, v) ∈ l := by
  induction l with
  | nil => simp [alookup] at h
  | cons p rest ih =>
    obtain ⟨a, b⟩ := p
    by_cases h2 : a = k
    · rw [alookup, if_pos h2] at h
      cases h
      subst h2
      exact List.mem_cons_self _ _
    · rw [alookup, if_neg h2] at h
      exact List.mem_cons_of_mem _ (ih h)

theorem alookup_append_right {α : Type} {l : List (Nat × α)} (l2 : List (Nat × α))
    {k : Nat} (h : alookup l k = none) :
    alookup (l ++ l2) k = alookup l2 k := by
  induction l with
  | nil => simp
  | cons p rest ih =>
    by_cases h2 : p.1 = k
    · rw [alookup, if_pos h2] at h
      cases h
    · rw [alookup, if_neg h2] at h
      rw [List.cons_append, alookup, if_neg h2]
      exact ih h

theorem sum_map_div (l : List ℚ) (c : ℚ) :
    (l.map fun x => x / c).sum = l.sum / c := by
  induction l with
  | nil => simp
  | cons x rest ih => simp [ih, add_div]

theorem pushId_mem_iff (l : List Nat) (n m : Nat) :
    m ∈ pushId l n ↔ m ∈ l ∨ m = n := by
  rw [pushId]
  by_cases h : n ∈ l
  · rw [if_pos h]
    constructor
    · exact Or.inl
    · rintro (hm | rfl)
      · exact hm
      · exact h
  · rw [if_neg h]
    simp

theorem pushId_of_mem {l : List Nat} {n : Nat} (h : n ∈ l) : pushId l n = l := by
  rw [pushId, if_pos h]

theorem pushId_of_not_mem {l : List Nat} {n : Nat} (h : n ∉ l) :
    pushId l n = l ++ [n] := by
  rw [pushId, if_neg h]

theorem mem_pushId_self (l : List Nat) (n : Nat) : n ∈ pushId l n := by
  rw [pushId_mem_iff]
  exact Or.inr rfl

theorem range'_append_my (s m n : Nat) :
    List.range' s m ++ List.range' (s + m) n = List.range' s (m + n) := by
  have h := List.range'_append s m n 1
  simp only [Nat.one_mul] at h
  rw [Nat.add_comm n m] at h
  exact h

theorem adjOf_stAddChild_self (st : St) (p c : Nat) :
    adjOf (stAddChild st p c) p = adjOf st p ++ [c] := by
  rw [adjOf, stAddChild]
  simp only [alookup_aset_self, Option.getD_some]

theorem adjOf_stAddChild_other (st : St) (p c m : Nat) (h : m ≠ p) :
    adjOf (stAddChild st p c) m = adjOf st m := by
  rw [adjOf, adjOf, stAddChild]
  simp only [alookup_aset_ne _ _ _ _ (fun hc => h hc.symm)]

theorem stAddNode_ci (st : St) (n : Nat) (v : NVal) (cd k : Nat) :
    (stAddNode st n v cd k).currentIndex = st.currentIndex := rfl

theorem stAddNode_shape (st : St) (node : Nat) (v : NVal) (cd k : Nat)
    (h1 : ∀ i ∈ st.order, i ≤ st.currentIndex) (h2 : node ≤ st.currentIndex) :
    ShapeOk node st (stAddNode st node v cd k) := by
  refine ⟨⟨0, by simp [stAddNode], by simp [stAddNode]⟩, ?_, ?_, ?_, ?_, rfl, rfl⟩
  · intro i hi
    rw [stAddNode_ci]
    rcases (pushId_mem_iff _ _ _).1 hi with hm | rfl
    · exact h1 i hm
    · exact h2
  · intro m _ hm
    refine ⟨rfl, ?_, ?_⟩
    · exact alookup_aset_ne _ _ _ _ (fun hc => hm hc.symm)
    · exact alookup_aset_ne _ _ _ _ (fun hc => hm hc.symm)
  · intro m _
    rfl
  · intro m c hc
    exact Or.inl hc

theorem fitChildren_shape (o : Oracle) (nb dep fuel cd node : Nat)
    (IH : ∀ (fs : List Feat) (nd : Nat) (root : NVal) (st : St),
      (∀ i ∈ st.order, i ≤ st.currentIndex) → nd ≤ st.currentIndex →
      ShapeOk nd st (fitGo o nb dep fuel fs nd root cd st)) :
    ∀ (l : List (List Feat × Feat)) (st2 : St),
      (∀ i ∈ st2.order, i ≤ st2.currentIndex) → node ∈ st2.order →
      node ≤ st2.currentIndex →
      ShapeOk node st2
        (l.foldl
          (fun st2 pr =>
            fitGo o nb dep fuel pr.1 (st2.currentIndex + 1) (NVal.vec pr.2) cd
              (stAddChild { st2 with currentIndex := st2.currentIndex + 1 } node
                (st2.currentIndex + 1)))
          st2) := by
  intro l
  induction l with
  | nil =>
    intro st2 hb hmem hle
    rw [List.foldl_nil]
    refine ⟨⟨0, by omega, by rw [pushId_of_mem hmem]; simp⟩, hb, ?_, ?_, ?_, rfl, rfl⟩
    · intro m _ _; exact ⟨rfl, rfl, rfl⟩
    · intro m _; rfl
    · intro m c hc; exact Or.inl hc
  | cons pr rest ih2 =>
    intro st2 hb hmem hle
    rw [List.foldl_cons]
    set st3 := stAddChild { st2 with currentIndex := st2.currentIndex + 1 } node
      (st2.currentIndex + 1) with hst3def
    set st4 := fitGo o nb dep fuel pr.1 (st2.currentIndex + 1) (NVal.vec pr.2) cd st3
      with hst4def
    have hidxnotmem : (st2.currentIndex + 1) ∉ st2.order := by
      intro hc
      have := hb _ hc
      omega
    have hst3ci : st3.currentIndex = st2.currentIndex + 1 := rfl
    have hst3order : st3.order = st2.order ++ [st2.currentIndex + 1] := by
      rw [hst3def]
      show pushId (pushId st2.order node) (st2.currentIndex + 1) = _
      rw [pushId_of_mem hmem, pushId_of_not_mem hidxnotmem]
    have hst3adj_self : adjOf st3 node = adjOf st2 node ++ [st2.currentIndex + 1] :=
      adjOf_stAddChild_self _ _ _
    have hst3adj_other : ∀ m, m ≠ node → adjOf st3 m = adjOf st2 m :=
      fun m hm => adjOf_stAddChild_other _ _ _ _ hm
    have hst3depth : st3.depthOf = st2.depthOf := rfl
    have hst3nfeat : st3.nFeatOf = st2.nFeatOf := rfl
    have hst3v : st3.visitsL = st2.visitsL := rfl
    have hst3w : st3.wList = st2.wList := rfl
    have hb3 : ∀ i ∈ st3.order, i ≤ st3.currentIndex := by
      rw [hst3order, hst3ci]
      intro i hi
      rcases List.mem_append.1 hi with hi | hi
      · have := hb _ hi
        omega
      · rcases List.mem_singleton.1 hi with rfl
        exact le_refl _
    obtain ⟨⟨k1, hci4, hord4⟩, hb4, hfr4, hhi4, hedge4, hv4, hw4⟩ :=
      IH pr.1 (st2.currentIndex + 1) (NVal.vec pr.2) st3 hb3
        (by rw [hst3ci])
    rw [hst3ci] at hci4
    have hidxmem3 : (st2.currentIndex + 1) ∈ st3.order := by
      rw [hst3order]
      exact List.mem_append_right _ (List.mem_singleton.2 rfl)
    rw [pushId_of_mem hidxmem3, hst3order, hst3ci] at hord4
    have hnode4 : node ∈ st4.order := by
      rw [hord4]
      exact List.mem_append_left _ (List.mem_append_left _ hmem)
    obtain ⟨⟨k2, hciF, hordF⟩, hbF, hfrF, hhiF, hedgeF, hvF, hwF⟩ :=
      ih2 st4 hb4 hnode4 (by rw [hci4]; omega)
    set stF := List.foldl
      (fun st2 pr =>
        fitGo o nb dep fuel pr.1 (st2.currentIndex + 1) (NVal.vec pr.2) cd
          (stAddChild { st2 with currentIndex := st2.currentIndex + 1 } node
            (st2.currentIndex + 1))) st4 rest with hstFdef
    rw [pushId_of_mem hnode4, hord4] at hordF
    have hciFtotal : stF.currentIndex = st2.currentIndex + (k1 + 1 + k2) := by
      rw [hciF, hci4]
      omega
    refine ⟨⟨k1 + 1 + k2, hciFtotal, ?_⟩, hbF, ?_, ?_, ?_, ?_, ?_⟩
    · rw [hordF, pushId_of_mem hmem, hci4]
      rw [List.append_assoc st2.order, List.append_assoc st2.order]
      congr 1
      have h1 : ([st2.currentIndex + 1] ++ List.range' (st2.currentIndex + 1 + 1) k1) =
          List.range' (st2.currentIndex + 1) (k1 + 1) := by
        rw [List.singleton_append]
        exact (List.range'_succ _ _ _).symm
      rw [h1]
      have h2 : st2.currentIndex + 1 + k1 + 1 = (st2.currentIndex + 1) + (k1 + 1) := by
        omega
      rw [h2, range'_append_my]
    · intro m hmle hmne
      have hle4 : m ≤ st3.currentIndex := by
        rw [hst3ci]
        omega
      have hle4b : m ≤ st4.currentIndex := by
        rw [hci4]
        omega
      have hmne2 : m ≠ st2.currentIndex + 1 := by omega
      obtain ⟨ha, hd, hf⟩ := hfrF m hle4b hmne
      obtain ⟨ha2, hd2, hf2⟩ := hfr4 m hle4 hmne2
      refine ⟨ha.trans (ha2.trans (hst3adj_other m hmne)), ?_, ?_⟩
      · rw [hd, hd2, hst3depth]
      · rw [hf, hf2, hst3nfeat]
    · intro m hm
      have h4 : adjOf stF m = adjOf st4 m := hhiF m hm
      have h5 := hhi4 m (by rw [hciF] at hm; omega)
      have hmnode : m ≠ node := by
        rw [hciFtotal] at hm
        omega
      exact h4.trans (h5.trans (hst3adj_other m hmnode))
    · intro m c hc
      rcases hedgeF m c hc with hc2 | ⟨hgt, hle2, hlt⟩
      · rcases hedge4 m c hc2 with hc3 | ⟨hgt, hle2, hlt⟩
        · by_cases hmn : m = node
          · subst hmn
            rw [hst3adj_self] at hc3
            rcases List.mem_append.1 hc3 with hc4 | hc4
            · exact Or.inl hc4
            · rcases List.mem_singleton.1 hc4 with rfl
              refine Or.inr ⟨by omega, ?_, by omega⟩
              rw [hciFtotal]
              omega
          · rw [hst3adj_other m hmn] at hc3
            exact Or.inl hc3
        · rw [hst3ci] at hgt
          rw [hci4] at hle2
          refine Or.inr ⟨by omega, ?_, hlt⟩
          rw [hciFtotal]
          omega
      · rw [hci4] at hgt
        rw [hciF, hci4] at hle2
        refine Or.inr ⟨by omega, ?_, hlt⟩
        rw [hciFtotal]
        omega
    · rw [hvF, hv4, hst3v]
    · rw [hwF, hw4, hst3w]

theorem stAddNode_adj (st : St) (n : Nat) (v : NVal) (cd k m : Nat) :
    adjOf (stAddNode st n v cd k) m = adjOf st m := rfl

/-- The full outside view of one `fit` call (see `ShapeOk`), by induction on
the recursion depth. -/
theorem fitGo_shape (o : Oracle) (nb dep : Nat) :
    ∀ (fuel cd : Nat) (features : List Feat) (node : Nat) (root : NVal) (st : St),
      (∀ i ∈ st.order, i ≤ st.currentIndex) → node ≤ st.currentIndex →
      ShapeOk node st (fitGo o nb dep fuel features node root cd st) := by
  intro fuel
  induction fuel with
  | zero =>
    intro cd features node root st h1 h2
    exact stAddNode_shape st node root cd features.length h1 h2
  | succ fuel ih =>
    intro cd features node root st h1 h2
    by_cases hleaf : dep ≤ cd ∨ features.length < nb
    · have hrw : fitGo o nb dep (fuel + 1) features node root cd st =
          stAddNode st node root cd features.length := by
        simp only [fitGo, if_pos hleaf]
      rw [hrw]
      exact stAddNode_shape _ _ _ _ _ h1 h2
    · have hrw : fitGo o nb dep (fuel + 1) features node root cd st =
          ((groupsOf (o features nb).2 nb features).zip (o features nb).1).foldl
            (fun st2 pr =>
              fitGo o nb dep fuel pr.1 (st2.currentIndex + 1) (NVal.vec pr.2)
                (cd + 1)
                (stAddChild { st2 with currentIndex := st2.currentIndex + 1 } node
                  (st2.currentIndex + 1)))
            (stAddNode st node root cd features.length) := by
        simp only [fitGo, if_neg hleaf]
      rw [hrw]
      have hS1 := stAddNode_shape st node root cd features.length h1 h2
      have hmem1 : node ∈ (stAddNode st node root cd features.length).order :=
        mem_pushId_self _ _
      obtain ⟨⟨k, hciF, hordF⟩, hbF, hfrF, hhiF, hedgeF, hvF, hwF⟩ :=
        fitChildren_shape o nb dep fuel (cd + 1) node
          (fun fs nd root2 st2 hb hn => ih (cd + 1) fs nd root2 st2 hb hn)
          ((groupsOf (o features nb).2 nb features).zip (o features nb).1)
          (stAddNode st node root cd features.length) hS1.2.1 hmem1 h2
      rw [pushId_of_mem hmem1] at hordF
      refine ⟨⟨k, hciF, hordF⟩, hbF, ?_, ?_, ?_, hvF, hwF⟩
      · intro m hmle hmne
        obtain ⟨ha, hd, hf⟩ := hfrF m hmle hmne
        refine ⟨ha.trans (stAddNode_adj _ _ _ _ _ _), ?_, ?_⟩
        · rw [hd]
          show alookup (aset st.depthOf node cd) m = alookup st.depthOf m
          exact alookup_aset_ne _ _ _ _ (fun hc => hmne hc.symm)
        · rw [hf]
          show alookup (aset st.nFeatOf node features.length) m =
            alookup st.nFeatOf m
          exact alookup_aset_ne _ _ _ _ (fun hc => hmne hc.symm)
      · intro m hm
        exact (hhiF m hm).trans (stAddNode_adj _ _ _ _ _ _)
      · intro m c hc
        rcases hedgeF m c hc with hc2 | hc2
        · exact Or.inl hc2
        · exact Or.inr hc2

theorem NodeOk_transfer {nb dep : Nat} (st st2 : St) {m : Nat}
    (hd : alookup st2.depthOf m = alookup st.depthOf m)
    (hf : alookup st2.nFeatOf m = alookup st.nFeatOf m)
    (ha : adjOf st2 m = adjOf st m) (h : NodeOk nb dep st m) :
    NodeOk nb dep st2 m := by
  obtain ⟨d, k, h1, h2, h3, h4⟩ := h
  exact ⟨d, k, by rw [hd, h1], by rw [hf, h2], h3, by rw [hf] at hf; rw [ha]; exact h4⟩

/-- The length of the zipped `(feature group, center)` list the children loop
of `fit` runs over: exactly `n_branches` when the oracle returns `n_branches`
centers. -/
theorem zip_groups_length (o : Oracle) (nb : Nat) (features : List Feat)
    (hcent : ((o features nb).1).length = nb) :
    ((groupsOf (o features nb).2 nb features).zip (o features nb).1).length = nb := by
  rw [List.length_zip, groupsOf, List.length_map, List.length_range, hcent]
  exact Nat.min_self nb

/-- The per-node contract of `fit` (see `NodeOk`): after a call with enough
fuel, the processed node and every node created beneath it satisfy the
leaf/branch dichotomy, provided the oracle returns `n_branches` centers. -/
theorem fitGo_nodes (o : Oracle) (nb dep : Nat)
    (hcent : ∀ fs, ((o fs nb).1).length = nb) :
    ∀ (fuel cd : Nat) (features : List Feat) (node : Nat) (root : NVal) (st : St),
      (∀ i ∈ st.order, i ≤ st.currentIndex) → node ≤ st.currentIndex →
      adjOf st node = [] → (∀ m, st.currentIndex < m → adjOf st m = []) →
      cd ≤ dep → dep - cd ≤ fuel →
      NodeOk nb dep (fitGo o nb dep fuel features node root cd st) node ∧
      (∀ m, st.currentIndex < m →
        m ≤ (fitGo o nb dep fuel features node root cd st).currentIndex →
        NodeOk nb dep (fitGo o nb dep fuel features node root cd st) m) := by
  intro fuel
  induction fuel with
  | zero =>
    intro cd features node root st hb hn hadj _ hcd hfuel
    have hleaf : dep ≤ cd := by omega
    constructor
    · refine ⟨cd, features.length, ?_, ?_, hcd, ?_⟩
      · exact alookup_aset_self _ _ _
      · exact alookup_aset_self _ _ _
      · rw [if_pos (Or.inl hleaf)]
        exact hadj
    · intro m hm1 hm2
      rw [show (fitGo o nb dep 0 features node root cd st).currentIndex =
        st.currentIndex from rfl] at hm2
      omega
  | succ fuel ih =>
    intro cd features node root st hb hn hadj hfresh hcd hfuel
    by_cases hleaf : dep ≤ cd ∨ features.length < nb
    · have hrw : fitGo o nb dep (fuel + 1) features node root cd st =
          stAddNode st node root cd features.length := by
        simp only [fitGo, if_pos hleaf]
      rw [hrw]
      constructor
      · refine ⟨cd, features.length, ?_, ?_, hcd, ?_⟩
        · exact alookup_aset_self _ _ _
        · exact alookup_aset_self _ _ _
        · rw [if_pos hleaf]
          exact hadj
      · intro m hm1 hm2
        rw [stAddNode_ci] at hm2
        omega
    · have hrw : fitGo o nb dep (fuel + 1) features node root cd st =
          ((groupsOf (o features nb).2 nb features).zip (o features nb).1).foldl
            (fun st2 pr =>
              fitGo o nb dep fuel pr.1 (st2.currentIndex + 1) (NVal.vec pr.2)
                (cd + 1)
                (stAddChild { st2 with currentIndex := st2.currentIndex + 1 } node
                  (st2.currentIndex + 1)))
            (stAddNode st node root cd features.length) := by
        simp only [fitGo, if_neg hleaf]
      rw [hrw]
      have hcdlt : cd < dep := by omega
      have foldInv : ∀ (l : List (List Feat × Feat)) (st2 : St),
          (∀ i ∈ st2.order, i ≤ st2.currentIndex) → node ∈ st2.order →
          node ≤ st2.currentIndex → st.currentIndex ≤ st2.currentIndex →
          alookup st2.depthOf node = some cd →
          alookup st2.nFeatOf node = some features.length →
          (adjOf st2 node).length + l.length = nb →
          (∀ m, st.currentIndex < m → m ≤ st2.currentIndex → NodeOk nb dep st2 m) →
          (∀ m, st2.currentIndex < m → adjOf st2 m = []) →
          (alookup (l.foldl
              (fun st2 pr =>
                fitGo o nb dep fuel pr.1 (st2.currentIndex + 1) (NVal.vec pr.2)
                  (cd + 1)
                  (stAddChild { st2 with currentIndex := st2.currentIndex + 1 } node
                    (st2.currentIndex + 1))) st2).depthOf node = some cd ∧
           alookup (l.foldl
              (fun st2 pr =>
                fitGo o nb dep fuel pr.1 (st2.currentIndex + 1) (NVal.vec pr.2)
                  (cd + 1)
                  (stAddChild { st2 with currentIndex := st2.currentIndex + 1 } node
                    (st2.currentIndex + 1))) st2).nFeatOf node = some features.length ∧
           (adjOf (l.foldl
              (fun st2 pr =>
                fitGo o nb dep fuel pr.1 (st2.currentIndex + 1) (NVal.vec pr.2)
                  (cd + 1)
                  (stAddChild { st2 with currentIndex := st2.currentIndex + 1 } node
                    (st2.currentIndex + 1))) st2) node).length = nb ∧
           st.currentIndex ≤ (l.foldl
              (fun st2 pr =>
                fitGo o nb dep fuel pr.1 (st2.currentIndex + 1) (NVal.vec pr.2)
                  (cd + 1)
                  (stAddChild { st2 with currentIndex := st2.currentIndex + 1 } node
                    (st2.currentIndex + 1))) st2).currentIndex ∧
           (∀ m, st.currentIndex < m →
              m ≤ (l.foldl
                (fun st2 pr =>
                  fitGo o nb dep fuel pr.1 (st2.currentIndex + 1) (NVal.vec pr.2)
                    (cd + 1)
                    (stAddChild { st2 with currentIndex := st2.currentIndex + 1 } node
                      (st2.currentIndex + 1))) st2).currentIndex →
              NodeOk nb dep (l.foldl
                (fun st2 pr =>
                  fitGo o nb dep fuel pr.1 (st2.currentIndex + 1) (NVal.vec pr.2)
                    (cd + 1)
                    (stAddChild { st2 with currentIndex := st2.currentIndex + 1 } node
                      (st2.currentIndex + 1))) st2) m)) := by
        intro l
        induction l with
        | nil =>
          intro st2 _ _ _ hcile hdep hnf hlen hok _
          rw [List.foldl_nil]
          exact ⟨hdep, hnf, by simpa using hlen, hcile, hok⟩
        | cons pr rest ih2 =>
          intro st2 hb2 hmem2 hle2 hcile hdep hnf hlen hok hfresh2
          rw [List.foldl_cons]
          set st3 := stAddChild { st2 with currentIndex := st2.currentIndex + 1 } node
            (st2.currentIndex + 1) with hst3def
          set st4 := fitGo o nb dep fuel pr.1 (st2.currentIndex + 1) (NVal.vec pr.2)
            (cd + 1) st3 with hst4def
          have hidxnotmem : (st2.currentIndex + 1) ∉ st2.order := by
            intro hc
            have := hb2 _ hc
            omega
          have hst3ci : st3.currentIndex = st2.currentIndex + 1 := rfl
          have hst3order : st3.order = st2.order ++ [st2.currentIndex + 1] := by
            rw [hst3def]
            show pushId (pushId st2.order node) (st2.currentIndex + 1) = _
            rw [pushId_of_mem hmem2, pushId_of_not_mem hidxnotmem]
          have hst3adj_self :
              adjOf st3 node = adjOf st2 node ++ [st2.currentIndex + 1] :=
            adjOf_stAddChild_self _ _ _
          have hst3adj_other : ∀ m, m ≠ node → adjOf st3 m = adjOf st2 m :=
            fun m hm => adjOf_stAddChild_other _ _ _ _ hm
          have hst3depth : st3.depthOf = st2.depthOf := rfl
          have hst3nfeat : st3.nFeatOf = st2.nFeatOf := rfl
          have hb3 : ∀ i ∈ st3.order, i ≤ st3.currentIndex := by
            rw [hst3order, hst3ci]
            intro i hi
            rcases List.mem_append.1 hi with hi | hi
            · have := hb2 _ hi
              omega
            · rcases List.mem_singleton.1 hi with rfl
              exact le_refl _
          have hnode_ne_idx : node ≠ st2.currentIndex + 1 := by omega
          have hidx_adj : adjOf st3 (st2.currentIndex + 1) = [] := by
            rw [hst3adj_other _ (fun hc => hnode_ne_idx hc.symm)]
            exact hfresh2 _ (by omega)
          have hfresh3 : ∀ m, st3.currentIndex < m → adjOf st3 m = [] := by
            intro m hm
            rw [hst3ci] at hm
            rw [hst3adj_other m (by omega)]
            exact hfresh2 _ (by omega)
          obtain ⟨hOk4, hOknew4⟩ := ih (cd + 1) pr.1 (st2.currentIndex + 1)
            (NVal.vec pr.2) st3 hb3 (by rw [hst3ci]) hidx_adj hfresh3
            (by omega) (by omega)
          obtain ⟨⟨k1, hci4, hord4⟩, hb4, hfr4, hhi4, hedge4, _, _⟩ :=
            fitGo_shape o nb dep fuel (cd + 1) pr.1 (st2.currentIndex + 1)
              (NVal.vec pr.2) st3 hb3 (by rw [hst3ci])
          rw [hst3ci] at hci4
          have hidxmem3 : (st2.currentIndex + 1) ∈ st3.order := by
            rw [hst3order]
            exact List.mem_append_right _ (List.mem_singleton.2 rfl)
          rw [pushId_of_mem hidxmem3, hst3order, hst3ci] at hord4
          have hnode4 : node ∈ st4.order := by
            rw [hst4def, hord4]
            exact List.mem_append_left _ (List.mem_append_left _ hmem2)
          have hfr4node := hfr4 node (by rw [hst3ci]; omega) hnode_ne_idx
          refine ih2 st4 hb4 hnode4 (by rw [hst4def, hci4]; omega)
            (by rw [hst4def, hci4]; omega) ?_ ?_ ?_ ?_ ?_
          · rw [hst4def, hfr4node.2.1, hst3depth]
            exact hdep
          · rw [hst4def, hfr4node.2.2, hst3nfeat]
            exact hnf
          · have hadj4 : adjOf st4 node = adjOf st2 node ++ [st2.currentIndex + 1] := by
              rw [hst4def, hfr4node.1, hst3adj_self]
            rw [hadj4, List.length_append, List.length_singleton]
            rw [List.length_cons] at hlen
            omega
          · intro m hm1 hm2
            rw [hst4def, hci4] at hm2
            by_cases hcase : m ≤ st2.currentIndex
            · have hmne : m ≠ node := by omega
              have hfr4m := hfr4 m (by rw [hst3ci]; omega) (by omega)
              have hOld := hok m hm1 (by omega)
              refine NodeOk_transfer st2 _ ?_ ?_ ?_ hOld
              · rw [hst4def, hfr4m.2.1, hst3depth]
              · rw [hst4def, hfr4m.2.2, hst3nfeat]
              · rw [hst4def, hfr4m.1, hst3adj_other m hmne]
            · by_cases hcase2 : m = st2.currentIndex + 1
              · subst hcase2
                exact hOk4
              · refine hOknew4 m (by rw [hst3ci]; omega) (by rw [hci4]; omega)
          · intro m hm
            rw [hst4def, hci4] at hm
            have hmne : m ≠ node := by omega
            rw [hst4def, hhi4 m (by rw [hci4]; omega), hst3adj_other m hmne]
            exact hfresh2 m (by omega)
      have hlen0 : (adjOf (stAddNode st node root cd features.length) node).length +
          ((groupsOf (o features nb).2 nb features).zip (o features nb).1).length = nb := by
        rw [stAddNode_adj, hadj, zip_groups_length o nb features (hcent features)]
        simp
      obtain ⟨hdepF, hnfF, hlenF, hciF, hnewF⟩ := foldInv
        ((groupsOf (o features nb).2 nb features).zip (o features nb).1)
        (stAddNode st node root cd features.length)
        (stAddNode_shape st node root cd features.length hb hn).2.1
        (mem_pushId_self _ _) hn (le_refl _)
        (alookup_aset_self _ _ _) (alookup_aset_self _ _ _) hlen0
        (by intro m hm1 hm2; rw [stAddNode_ci] at hm2; omega)
        (by intro m hm; rw [stAddNode_adj]; exact hfresh m hm)
      constructor
      · refine ⟨cd, features.length, hdepF, hnfF, hcd, ?_⟩
        rw [if_neg hleaf]
        exact hlenF
      · exact hnewF

theorem adjOf_emptySt (n : Nat) : adjOf emptySt n = [] := rfl

/-- The node list of a fitted tree is the contiguous range of ids from 0 up
to the final value of the shared counter. -/
theorem fit_order (o : Oracle) (nb dep : Nat) (fs : List Feat) :
    (fit o nb dep fs).order =
      List.range ((fit o nb dep fs).currentIndex + 1) := by
  obtain ⟨⟨k, hci, hord⟩, _, _, _, _, _, _⟩ :=
    fitGo_shape o nb dep dep 0 fs 0 (NVal.scalar (meanAll fs)) emptySt
      (by intro i hi; cases hi) (le_refl _)
  show (fit o nb dep fs).order = _
  rw [fit] at *
  rw [hord, hci]
  have h0 : pushId emptySt.order 0 = [0] := by
    rw [pushId_of_not_mem (by intro h; cases h)]
    rfl
  rw [h0]
  have he : emptySt.currentIndex = 0 := rfl
  rw [he]
  simp only [Nat.zero_add]
  have h2 : List.range' 0 (k + 1) = 0 :: List.range' 1 k := by
    have h3 := List.range'_succ 0 k 1
    simpa using h3
  rw [List.singleton_append, List.range_eq_range', h2]

/-- Every edge of a fitted tree goes from a smaller id to a strictly larger
one, and all ids are below the number of nodes. -/
theorem fit_adj_bounds (o : Oracle) (nb dep : Nat) (fs : List Feat) :
    ∀ n c, c ∈ adjOf (fit o nb dep fs) n →
      n < c ∧ c < (fit o nb dep fs).order.length := by
  obtain ⟨⟨k, hci, _⟩, _, _, _, hedge, _, _⟩ :=
    fitGo_shape o nb dep dep 0 fs 0 (NVal.scalar (meanAll fs)) emptySt
      (by intro i hi; cases hi) (le_refl _)
  intro n c hc
  rcases hedge n c hc with hc2 | ⟨_, hle, hlt⟩
  · rw [adjOf_emptySt] at hc2
    cases hc2
  · constructor
    · exact hlt
    · rw [fit_order, List.length_range]
      show c < (fit o nb dep fs).currentIndex + 1
      rw [fit] at *
      omega

theorem scanChildren_eq (st : St) (f : Feat) :
    ∀ (l : List Nat) (m : Option ℚ) (node : Nat) (path : List Nat),
      scanChildren st f l m node path =
        ((selGo st f l m node).1, (selGo st f l m node).2, path ++ l) := by
  intro l
  induction l with
  | nil => intro m node path; simp [scanChildren, selGo]
  | cons c rest ih =>
    intro m node path
    by_cases h : better m (distSq st c f)
    · simp only [scanChildren, selGo, h, if_true, ih]
      simp
    · simp only [scanChildren, selGo, h, if_false, ih]
      simp

theorem selGo_some_spec (st : St) (f : Feat) :
    ∀ (l : List Nat) (mv : ℚ) (node : Nat),
      ((∀ x ∈ l, mv ≤ distSq st x f) ∧ selGo st f l (some mv) node = (some mv, node)) ∨
      (∃ l1 c l2, l = l1 ++ c :: l2 ∧ distSq st c f < mv ∧
        (∀ x ∈ l1, distSq st c f < distSq st x f) ∧
        (∀ x ∈ l2, distSq st c f ≤ distSq st x f) ∧
        selGo st f l (some mv) node = (some (distSq st c f), c)) := by
  intro l
  induction l with
  | nil =>
    intro mv node
    left
    constructor
    · intro x hx; cases hx
    · rfl
  | cons c0 rest ih =>
    intro mv node
    by_cases h : distSq st c0 f < mv
    · have hb : better (some mv) (distSq st c0 f) = true := by
        simp [better, h]
      have hsel : selGo st f (c0 :: rest) (some mv) node =
          selGo st f rest (some (distSq st c0 f)) c0 := by
        simp [selGo, hb]
      rcases ih (distSq st c0 f) c0 with ⟨hall, heq⟩ | ⟨l1, c, l2, hsplit, hlt, h1, h2, heq⟩
      · right
        refine ⟨[], c0, rest, by simp, h, ?_, hall, by rw [hsel, heq]⟩
        intro x hx; cases hx
      · right
        refine ⟨c0 :: l1, c, l2, by simp [hsplit], lt_trans hlt h, ?_, h2,
          by rw [hsel, heq]⟩
        intro x hx
        rcases List.mem_cons.1 hx with hx | hx
        · subst hx; exact hlt
        · exact h1 x hx
    · have hb : better (some mv) (distSq st c0 f) = false := by
        simp [better, h]
      have hsel : selGo st f (c0 :: rest) (some mv) node =
          selGo st f rest (some mv) node := by
        simp [selGo, hb]
      have hle : mv ≤ distSq st c0 f := le_of_not_lt h
      rcases ih mv node with ⟨hall, heq⟩ | ⟨l1, c, l2, hsplit, hlt, h1, h2, heq⟩
      · left
        constructor
        · intro x hx
          rcases List.mem_cons.1 hx with hx | hx
          · subst hx; exact hle
          · exact hall x hx
        · rw [hsel, heq]
      · right
        refine ⟨c0 :: l1, c, l2, by simp [hsplit], hlt, ?_, h2, by rw [hsel, heq]⟩
        intro x hx
        rcases List.mem_cons.1 hx with hx | hx
        · subst hx; exact lt_of_lt_of_le hlt hle
        · exact h1 x hx

theorem selGo_none_spec (st : St) (f : Feat) (l : List Nat) (node : Nat)
    (h : l ≠ []) :
    ∃ l1 c l2, l = l1 ++ c :: l2 ∧
      (∀ x ∈ l1, distSq st c f < distSq st x f) ∧
      (∀ x ∈ l2, distSq st c f ≤ distSq st x f) ∧
      selGo st f l none node = (some (distSq st c f), c) := by
  cases l with
  | nil => exact absurd rfl h
  | cons c0 rest =>
    have hsel : selGo st f (c0 :: rest) none node =
        selGo st f rest (some (distSq st c0 f)) c0 := by
      simp [selGo, better]
    rcases selGo_some_spec st f rest (distSq st c0 f) c0 with
      ⟨hall, heq⟩ | ⟨l1, c, l2, hsplit, hlt, h1, h2, heq⟩
    · refine ⟨[], c0, rest, by simp, ?_, hall, by rw [hsel, heq]⟩
      intro x hx; cases hx
    · refine ⟨c0 :: l1, c, l2, by simp [hsplit], ?_, h2, by rw [hsel, heq]⟩
      intro x hx
      rcases List.mem_cons.1 hx with hx | hx
      · subst hx; exact hlt
      · exact h1 x hx

theorem selGo_none_mem (st : St) (f : Feat) (l : List Nat) (node : Nat)
    (h : l ≠ []) : (selGo st f l none node).2 ∈ l := by
  rcases selGo_none_spec st f l node h with ⟨l1, c, l2, hsplit, _, _, heq⟩
  rw [heq, hsplit]
  exact List.mem_append_right _ (List.mem_cons_self _ _)

theorem routeGo_spec (st : St) (f : Feat) (B : Nat)
    (hB : ∀ n c, c ∈ adjOf st n → n < c ∧ c < B) :
    ∀ (fuel node : Nat) (path : List Nat), B ≤ node + fuel + 1 →
      adjOf st (routeGo st f fuel node path).1 = [] ∧
      (∃ suf, (routeGo st f fuel node path).2 = path ++ suf) ∧
      (node ∈ path → (routeGo st f fuel node path).1 ∈ (routeGo st f fuel node path).2) := by
  intro fuel
  induction fuel with
  | zero =>
    intro node path hfuel
    have hleaf : adjOf st node = [] := by
      cases h : adjOf st node with
      | nil => rfl
      | cons c rest =>
        have := hB node c (by rw [h]; exact List.mem_cons_self _ _)
        omega
    refine ⟨hleaf, ⟨[], by simp [routeGo]⟩, ?_⟩
    intro hmem
    simp only [routeGo]
    exact hmem
  | succ fuel ih =>
    intro node path hfuel
    cases h : adjOf st node with
    | nil =>
      refine ⟨by simp [routeGo, h], ⟨[], by simp [routeGo, h]⟩, ?_⟩
      intro hmem
      simp only [routeGo, h]
      exact hmem
    | cons c rest =>
      have hstep : routeGo st f (fuel + 1) node path =
          routeGo st f fuel (selGo st f (c :: rest) none node).2
            (path ++ (c :: rest)) := by
        simp only [routeGo, h, scanChildren_eq]
      have hmemc : (selGo st f (c :: rest) none node).2 ∈ (c :: rest) :=
        selGo_none_mem st f (c :: rest) node (by simp)
      have hbounds := hB node _ (by rw [h]; exact hmemc)
      have ihr := ih (selGo st f (c :: rest) none node).2 (path ++ (c :: rest))
        (by omega)
      refine ⟨by rw [hstep]; exact ihr.1, ?_, ?_⟩
      · obtain ⟨suf, hsuf⟩ := ihr.2.1
        exact ⟨c :: rest ++ suf, by rw [hstep, hsuf, List.append_assoc]⟩
      · intro _
        rw [hstep]
        exact ihr.2.2 (List.mem_append_right _ hmemc)

theorem routeGo_count (st : St) (f : Feat) (a : Nat)
    (ha : ∀ n c, c ∈ adjOf st n → c ≠ a) :
    ∀ (fuel node : Nat) (path : List Nat),
      (routeGo st f fuel node path).2.count a = path.count a := by
  intro fuel
  induction fuel with
  | zero => intro node path; simp [routeGo]
  | succ fuel ih =>
    intro node path
    cases h : adjOf st node with
    | nil => simp [routeGo, h]
    | cons c rest =>
      have hstep : routeGo st f (fuel + 1) node path =
          routeGo st f fuel (selGo st f (c :: rest) none node).2
            (path ++ (c :: rest)) := by
        simp only [routeGo, h, scanChildren_eq]
      rw [hstep, ih]
      rw [List.count_append]
      have hz : (c :: rest).count a = 0 := by
        rw [List.count_eq_zero]
        intro hmem
        exact ha node a (by rw [h]; exact hmem) rfl
      omega

/-- The fields `incrVisit` leaves untouched: everything except `visitsL`. -/
theorem incrVisit_frame (st : St) (n img : Nat) :
    (incrVisit st n img).adjList = st.adjList ∧
    (incrVisit st n img).order = st.order ∧
    (incrVisit st n img).nodesVal = st.nodesVal ∧
    (incrVisit st n img).wList = st.wList ∧
    (incrVisit st n img).depthOf = st.depthOf ∧
    (incrVisit st n img).nFeatOf = st.nFeatOf ∧
    (incrVisit st n img).currentIndex = st.currentIndex := by
  simp [incrVisit]

theorem visitCount_incr_self (st : St) (n img : Nat) :
    visitCount (incrVisit st n img) n img = visitCount st n img + 1 := by
  have hd : visitDict (incrVisit st n img) n =
      (match alookup (visitDict st n) img with
       | none => visitDict st n ++ [(img, 1)]
       | some c => aset (visitDict st n) img (c + 1)) := by
    simp [incrVisit, visitDict, alookup_aset_self]
  rw [visitCount, hd]
  cases h : alookup (visitDict st n) img with
  | none =>
    simp only [h]
    rw [alookup_append_right _ h]
    simp [alookup, visitCount, h]
  | some c =>
    simp only [h]
    rw [alookup_aset_self]
    simp [visitCount, h]

theorem visitCount_incr_other (st : St) (n m img : Nat) (h : m ≠ n) :
    visitCount (incrVisit st m img) n img = visitCount st n img := by
  unfold incrVisit visitCount visitDict
  simp only [alookup_aset_ne _ _ _ _ h]

/-- Folding `incrVisit` over a path adds, at every node, the number of
occurrences of that node in the path. -/
theorem foldl_incr_count (img : Nat) :
    ∀ (path : List Nat) (st : St) (n : Nat),
      visitCount (path.foldl (fun s m => incrVisit s m img) st) n img =
        visitCount st n img + path.count n := by
  intro path
  induction path with
  | nil => intro st n; simp
  | cons m rest ih =>
    intro st n
    rw [List.foldl_cons, ih]
    by_cases h : m = n
    · subst h
      rw [visitCount_incr_self]
      simp [List.count_cons]
      omega
    · rw [visitCount_incr_other st n m img (by omega)]
      simp [List.count_cons, h]

theorem foldl_incr_frame (img : Nat) :
    ∀ (path : List Nat) (st : St),
      ((path.foldl (fun s m => incrVisit s m img) st).adjList = st.adjList ∧
       (path.foldl (fun s m => incrVisit s m img) st).order = st.order ∧
       (path.foldl (fun s m => incrVisit s m img) st).nodesVal = st.nodesVal ∧
       (path.foldl (fun s m => incrVisit s m img) st).wList = st.wList ∧
       (path.foldl (fun s m => incrVisit s m img) st).depthOf = st.depthOf ∧
       (path.foldl (fun s m => incrVisit s m img) st).nFeatOf = st.nFeatOf ∧
       (path.foldl (fun s m => incrVisit s m img) st).currentIndex = st.currentIndex) := by
  intro path
  induction path with
  | nil => intro st; simp
  | cons m rest ih =>
    intro st
    rw [List.foldl_cons]
    have h1 := incrVisit_frame st m img
    have h2 := ih (incrVisit st m img)
    exact ⟨h2.1.trans h1.1, h2.2.1.trans h1.2.1, h2.2.2.1.trans h1.2.2.1,
      h2.2.2.2.1.trans h1.2.2.2.1, h2.2.2.2.2.1.trans h1.2.2.2.2.1,
      h2.2.2.2.2.2.1.trans h1.2.2.2.2.2.1, h2.2.2.2.2.2.2.trans h1.2.2.2.2.2.2⟩

theorem tfidf_sum (st : St) (img : Nat) :
    (tfidf st img).sum = (totalVisits st img : ℚ) := by
  rw [tfidf, totalVisits, Nat.cast_list_sum, List.map_map]
  rfl

theorem l1norm_tfidf (st : St) (img : Nat) :
    l1normQ (tfidf st img) = (totalVisits st img : ℚ) := by
  rw [l1normQ]
  have habs : (tfidf st img).map (fun t => |t|) = tfidf st img := by
    rw [tfidf, List.map_map]
    apply List.map_congr_left
    intro n _
    have : (0:ℚ) ≤ (visitCount st n img : ℚ) := Nat.cast_nonneg _
    simp [Function.comp, abs_of_nonneg this]
  rw [habs, tfidf_sum]

theorem encode_eq_div (st : St) (img : Nat) :
    encode st img =
      st.order.map fun n =>
        (visitCount st n img : ℚ) / (totalVisits st img : ℚ) := by
  rw [encode]
  simp only [l1norm_tfidf]
  rw [tfidf, List.map_map]
  rfl

theorem encode_sum_one (st : St) (img : Nat) (h : totalVisits st img ≠ 0) :
    (encode st img).sum = 1 := by
  rw [encode]
  simp only [l1norm_tfidf]
  rw [sum_map_div, tfidf_sum]
  exact div_self (by exact_mod_cast h)

theorem encode_bounds (st : St) (img : Nat) (h : totalVisits st img ≠ 0) :
    ∀ x ∈ encode st img, 0 ≤ x ∧ x ≤ 1 := by
  intro x hx
  rw [encode_eq_div] at hx
  obtain ⟨n, hn, rfl⟩ := List.mem_map.1 hx
  have hTpos : (0 : ℚ) < (totalVisits st img : ℚ) := by
    exact_mod_cast Nat.pos_of_ne_zero h
  constructor
  · exact div_nonneg (Nat.cast_nonneg _) (le_of_lt hTpos)
  · rw [div_le_one hTpos]
    have hle : visitCount st n img ≤ totalVisits st img := by
      rw [totalVisits]
      exact List.single_le_sum (by intro x _; exact Nat.zero_le x) _
        (List.mem_map_of_mem _ hn)
    exact_mod_cast hle

theorem zipWith_mul_self (v : List ℚ) :
    List.zipWith (fun a b => a * b) v v = v.map fun t => t * t := by
  induction v with
  | nil => rfl
  | cons x rest ih => simp [ih]

theorem adjOf_forall {g : St} {P : Nat → Nat → Prop}
    (h : ∀ p ∈ g.adjList, ∀ c ∈ p.2, P p.1 c) :
    ∀ n c, c ∈ adjOf g n → P n c := by
  intro n c hc
  rw [adjOf] at hc
  cases hl : alookup g.adjList n with
  | none => rw [hl] at hc; cases hc
  | some l => rw [hl] at hc; exact h (n, l) (alookup_mem hl) c hc

/-- `propagate` mutates only the visit dictionaries. -/
theorem propagate_frame (g : St) (im : Image) :
    (propagate g im).adjList = g.adjList ∧
    (propagate g im).order = g.order ∧
    (propagate g im).nodesVal = g.nodesVal ∧
    (propagate g im).wList = g.wList ∧
    (propagate g im).depthOf = g.depthOf ∧
    (propagate g im).nFeatOf = g.nFeatOf ∧
    (propagate g im).currentIndex = g.currentIndex := by
  unfold propagate
  generalize im.2 = feats
  induction feats generalizing g with
  | nil => simp
  | cons f rest ih =>
    rw [List.foldl_cons]
    have h1 := foldl_incr_frame im.1 (propagate_feature g f 0) g
    have h2 := ih ((propagate_feature g f 0).foldl (fun s m => incrVisit s m im.1) g)
    exact ⟨h2.1.trans h1.1, h2.2.1.trans h1.2.1, h2.2.2.1.trans h1.2.2.1,
      h2.2.2.2.1.trans h1.2.2.2.1, h2.2.2.2.2.1.trans h1.2.2.2.2.1,
      h2.2.2.2.2.2.1.trans h1.2.2.2.2.2.1, h2.2.2.2.2.2.2.trans h1.2.2.2.2.2.2⟩

/-- Counting the root through one image's propagation: each feature's path
contains the start node 0 exactly once when no node has 0 as a child. -/
theorem propagate_count_aux (img : Nat) :
    ∀ (feats : List Feat) (g : St), (∀ n c, c ∈ adjOf g n → 0 < c) →
      visitCount
        (feats.foldl
          (fun st2 f =>
            (propagate_feature st2 f 0).foldl (fun st3 n => incrVisit st3 n img) st2)
          g) 0 img =
        visitCount g 0 img + feats.length := by
  intro feats
  induction feats with
  | nil => intro g _; simp
  | cons f rest ih =>
    intro g h
    rw [List.foldl_cons]
    have hcount : visitCount
        ((propagate_feature g f 0).foldl (fun st3 n => incrVisit st3 n img) g) 0 img =
        visitCount g 0 img + 1 := by
      rw [foldl_incr_count]
      have hpath : (propagate_feature g f 0).count 0 = 1 := by
        rw [propagate_feature, routeGo_count g f 0 ?ha]
        · simp
        case ha =>
          intro n c hc
          have := h n c hc
          omega
      rw [hpath]
    have hadj : ∀ n c,
        c ∈ adjOf ((propagate_feature g f 0).foldl (fun st3 n => incrVisit st3 n img) g) n →
        0 < c := by
      intro n c hc
      rw [adjOf, (foldl_incr_frame img _ g).1] at hc
      exact h n c hc
    rw [ih _ hadj, hcount, List.length_cons]
    omega

theorem treeEq_refl (a : St) : treeEq a a :=
  ⟨rfl, rfl, rfl, rfl, rfl, rfl⟩

theorem treeEq_trans {a b c : St} (h1 : treeEq a b) (h2 : treeEq b c) : treeEq a c :=
  ⟨h1.1.trans h2.1, h1.2.1.trans h2.2.1, h1.2.2.1.trans h2.2.2.1,
   h1.2.2.2.1.trans h2.2.2.2.1, h1.2.2.2.2.1.trans h2.2.2.2.2.1,
   h1.2.2.2.2.2.trans h2.2.2.2.2.2⟩

theorem foldl_pres {β : Type} (R : St → St → Prop)
    (htrans : ∀ a b c, R a b → R b c → R a c) (hrefl : ∀ s, R s s)
    (f : St → β → St) (hf : ∀ s b, R (f s b) s) :
    ∀ (l : List β) (s : St), R (l.foldl f s) s := by
  intro l
  induction l with
  | nil => intro s; exact hrefl s
  | cons b rest ih =>
    intro s
    rw [List.foldl_cons]
    exact htrans _ _ _ (ih (f s b)) (hf s b)

theorem propagate_treeEq (g : St) (im : Image) :
    treeEq (propagate g im) g ∧ (propagate g im).wList = g.wList := by
  have h := propagate_frame g im
  exact ⟨⟨h.1, h.2.1, h.2.2.1, h.2.2.2.2.1, h.2.2.2.2.2.1, h.2.2.2.2.2.2⟩,
    h.2.2.2.1⟩

theorem corpus_fold_treeEq (corpus : List Image) (g : St) :
    treeEq (corpus.foldl (fun s im => propagate s im) g) g ∧
    (corpus.foldl (fun s im => propagate s im) g).wList = g.wList := by
  refine foldl_pres (fun a b => treeEq a b ∧ a.wList = b.wList) ?_ ?_ _ ?_ corpus g
  · intro a b c h1 h2
    exact ⟨treeEq_trans h1.1 h2.1, h1.2.trans h2.2⟩
  · intro s; exact ⟨treeEq_refl s, rfl⟩
  · intro s b; exact propagate_treeEq s b

theorem weightStep_pres (N : ℚ) (s : St) (n : Nat) :
    treeEq (weightStep N s n) s ∧ (weightStep N s n).visitsL = s.visitsL := by
  simp only [weightStep]
  by_cases h : (visitDict s n).length ≠ 0
  · rw [if_pos h]
    exact ⟨⟨rfl, rfl, rfl, rfl, rfl, rfl⟩, rfl⟩
  · rw [if_neg h]
    exact ⟨treeEq_refl s, rfl⟩

theorem visitDict_congr {a b : St} (h : a.visitsL = b.visitsL) (n : Nat) :
    visitDict a n = visitDict b n := by
  rw [visitDict, visitDict, h]

/-- The weight loop: every node of the iterated list with a nonempty
attribute dictionary gets the weight `N / N_i`; every other node keeps its
previous "w" attribute; nothing else changes. -/
theorem weightStep_foldl (N : ℚ) :
    ∀ (l : List Nat) (s : St),
      (l.foldl (weightStep N) s).visitsL = s.visitsL ∧
      treeEq (l.foldl (weightStep N) s) s ∧
      ∀ n, wOf (l.foldl (weightStep N) s) n =
        if n ∈ l ∧ visitDict s n ≠ [] then
          some (N / ((visitDict s n).length : ℚ))
        else wOf s n := by
  intro l
  induction l with
  | nil =>
    intro s
    refine ⟨rfl, treeEq_refl s, ?_⟩
    intro n
    simp
  | cons a rest ih =>
    intro s
    rw [List.foldl_cons]
    have hstep := weightStep_pres N s a
    have hI := ih (weightStep N s a)
    refine ⟨hI.1.trans hstep.2, treeEq_trans hI.2.1 hstep.1, ?_⟩
    intro n
    have hdict : ∀ m, visitDict (weightStep N s a) m = visitDict s m :=
      visitDict_congr hstep.2
    rw [hI.2.2 n, hdict n]
    have hw : wOf (weightStep N s a) n =
        if n = a ∧ visitDict s a ≠ [] then
          some (N / ((visitDict s a).length : ℚ))
        else wOf s n := by
      simp only [weightStep]
      by_cases hne : (visitDict s a).length ≠ 0
      · rw [if_pos hne]
        have hne2 : visitDict s a ≠ [] := by
          intro hcon
          rw [hcon] at hne
          exact hne rfl
        by_cases heq : n = a
        · subst heq
          rw [if_pos ⟨rfl, hne2⟩, wOf]
          exact alookup_aset_self _ _ _
        · rw [if_neg (fun hc => heq hc.1), wOf, wOf]
          exact alookup_aset_ne _ _ _ _ (fun hc => heq hc.symm)
      · rw [if_neg hne]
        have hemp : visitDict s a = [] := List.length_eq_zero.1 (by omega)
        rw [if_neg (fun hc => hc.2 hemp)]
    rw [hw]
    by_cases h1 : n ∈ rest ∧ visitDict s n ≠ []
    · rw [if_pos h1, if_pos ⟨List.mem_cons_of_mem _ h1.1, h1.2⟩]
    · rw [if_neg h1]
      by_cases h2 : n = a ∧ visitDict s a ≠ []
      · obtain ⟨rfl, hne⟩ := h2
        rw [if_pos ⟨rfl, hne⟩, if_pos ⟨List.mem_cons_self _ _, hne⟩]
      · rw [if_neg h2]
        have h3 : ¬(n ∈ a :: rest ∧ visitDict s n ≠ []) := by
          intro hcon
          rcases List.mem_cons.1 hcon.1 with heq | hmem
          · exact h2 ⟨heq, heq ▸ hcon.2⟩
          · exact h1 ⟨hmem, hcon.2⟩
        rw [if_neg h3]

theorem sum_sq_le_sum (v : List ℚ) (hb : ∀ x ∈ v, 0 ≤ x ∧ x ≤ 1) :
    (v.map fun t => t * t).sum ≤ v.sum := by
  induction v with
  | nil => simp
  | cons x rest ih =>
    simp only [List.map_cons, List.sum_cons]
    have hx := hb x (List.mem_cons_self _ _)
    have hr := ih fun y hy => hb y (List.mem_cons_of_mem _ hy)
    have hxx : x * x ≤ x := by nlinarith [hx.1, hx.2]
    linarith

theorem distSq_nonneg (st : St) (c : Nat) (f : Feat) : 0 ≤ distSq st c f := by
  rw [distSq]
  apply List.sum_nonneg
  intro x hx
  obtain ⟨t, _, rfl⟩ := List.mem_map.1 hx
  exact mul_self_nonneg t

theorem oracleEx_centers (l : List Feat) (k : Nat) :
    ((oracleEx l k).1).length = 2 := by
  simp only [oracleEx]
  split <;> rfl

unseal Rat.add Rat.mul Rat.sub Rat.inv Rat.ofScientific

/-- C6: for any tree produced by `fit`, the node ids are exactly the
contiguous range `[0, total_nodes)` with no duplicates, the root has id 0,
and because the node list records creation order, the equality with
`List.range` also shows that the single shared counter hands each child the
next unused id at the moment it is created, before recursion enters it
(pre-order of construction). -/
theorem claim_c6 (o : Oracle) (nb dep : Nat) (fs : List Feat) :
    (fit o nb dep fs).order = List.range ((fit o nb dep fs).order.length) ∧
    (fit o nb dep fs).order.head? = some 0 ∧
    (fit o nb dep fs).order.Nodup := by
  have h := fit_order o nb dep fs
  have hlen : (fit o nb dep fs).order.length =
      (fit o nb dep fs).currentIndex + 1 := by
    rw [h, List.length_range]
  refine ⟨by rw [hlen, h], ?_, by rw [h]; exact List.nodup_range _⟩
  rw [h]
  have h2 : List.range ((fit o nb dep fs).currentIndex + 1) =
      0 :: List.range' 1 (fit o nb dep fs).currentIndex := by
    rw [List.range_eq_range']
    have h3 := List.range'_succ 0 (fit o nb dep fs).currentIndex 1
    simpa using h3
  rw [h2]
  rfl

/-- C5: for `n_branches ≥ 2`, `depth ≥ 1` and a nonempty feature set, with a
clustering oracle meeting its contract of returning `n_branches` centers,
every node of the fitted tree is a leaf exactly when its recorded depth
equals the configured maximum or its recorded number of routed feature
vectors is below `n_branches`, and every internal node has exactly
`n_branches` children. -/
theorem claim_c5 (o : Oracle) (nb dep : Nat) (fs : List Feat)
    (hnb : 2 ≤ nb) (hdep : 1 ≤ dep) (_hfs : fs ≠ [])
    (hcent : ∀ l, ((o l nb).1).length = nb) :
    ∀ n ∈ (fit o nb dep fs).order,
      ∃ d k, alookup (fit o nb dep fs).depthOf n = some d ∧
        alookup (fit o nb dep fs).nFeatOf n = some k ∧
        (adjOf (fit o nb dep fs) n = [] ↔ (d = dep ∨ k < nb)) ∧
        (adjOf (fit o nb dep fs) n ≠ [] →
          (adjOf (fit o nb dep fs) n).length = nb) := by
  intro n hn
  obtain ⟨hOk0, hOknew⟩ := fitGo_nodes o nb dep hcent dep 0 fs 0
    (NVal.scalar (meanAll fs)) emptySt (by intro i hi; cases hi) (le_refl _)
    rfl (fun m _ => rfl) (by omega) (by omega)
  have hn2 : n ≤ (fit o nb dep fs).currentIndex := by
    rw [fit_order] at hn
    have := List.mem_range.1 hn
    omega
  have hOk : NodeOk nb dep (fit o nb dep fs) n := by
    rcases Nat.eq_zero_or_pos n with rfl | hpos
    · exact hOk0
    · exact hOknew n (by show emptySt.currentIndex < n; exact hpos) hn2
  obtain ⟨d, k, h1, h2, h3, h4⟩ := hOk
  refine ⟨d, k, h1, h2, ?_, ?_⟩
  · by_cases hcond : dep ≤ d ∨ k < nb
    · rw [if_pos hcond] at h4
      constructor
      · intro _
        rcases hcond with hc | hc
        · left; omega
        · right; exact hc
      · intro _
        exact h4
    · rw [if_neg hcond] at h4
      constructor
      · intro hadj
        rw [hadj] at h4
        simp at h4
        omega
      · intro hor
        exfalso
        apply hcond
        rcases hor with hc | hc
        · left; omega
        · right; exact hc
  · by_cases hcond : dep ≤ d ∨ k < nb
    · rw [if_pos hcond] at h4
      intro hne
      exact absurd h4 hne
    · rw [if_neg hcond] at h4
      intro _
      exact h4

theorem claim_c5_witness :
    (2 ≤ 2 ∧ 1 ≤ 2 ∧ ([[0], [10], [11], [12]] : List Feat) ≠ [] ∧
      (∀ l, ((oracleEx l 2).1).length = 2)) ∧
    (∀ n ∈ (fit oracleEx 2 2 [[0], [10], [11], [12]]).order,
      ∃ d k, alookup (fit oracleEx 2 2 [[0], [10], [11], [12]]).depthOf n = some d ∧
        alookup (fit oracleEx 2 2 [[0], [10], [11], [12]]).nFeatOf n = some k ∧
        (adjOf (fit oracleEx 2 2 [[0], [10], [11], [12]]) n = [] ↔
          (d = 2 ∨ k < 2)) ∧
        (adjOf (fit oracleEx 2 2 [[0], [10], [11], [12]]) n ≠ [] →
          (adjOf (fit oracleEx 2 2 [[0], [10], [11], [12]]) n).length = 2)) :=
  ⟨⟨by decide, by decide, by decide, fun l => oracleEx_centers l 2⟩,
   claim_c5 oracleEx 2 2 [[0], [10], [11], [12]] (by decide) (by decide)
     (by decide) (fun l => oracleEx_centers l 2)⟩

/-- C3 counterexample: on the concrete fitted tree `gEx` (root 0 with
children 1, 2; node 2 with children 3, 4), routing the feature `[0]` from
the root returns the path `[0, 1, 2]`, whose last element is node 2 — a node
with children `[3, 4]` — because the source appends every scanned child to
the path, not only the chosen one.  This refutes the claim that the last
element of the returned sequence is always a node with no children. -/
theorem claim_c3_counterexample :
    propagate_feature gEx [0] 0 = [0, 1, 2] ∧
    (propagate_feature gEx [0] 0).getLast? = some 2 ∧
    adjOf gEx 2 = [3, 4] := by
  refine ⟨by decide, by decide, by decide⟩

/-- C3 (amended): for every feature vector and every start node in a fitted
tree, `propagate_feature` returns a sequence whose first element is the
start node id, and the node at which the greedy descent stops has no
children and appears in the sequence; the last element of the sequence,
however, is the last child scanned at the final level and may have children,
because the source records every scanned child. -/
theorem claim_c3 (o : Oracle) (nb dep : Nat) (fs : List Feat) (f : Feat)
    (start : Nat) :
    (propagate_feature (fit o nb dep fs) f start).head? = some start ∧
    adjOf (fit o nb dep fs) (routeEnd (fit o nb dep fs) f start) = [] ∧
    routeEnd (fit o nb dep fs) f start ∈
      propagate_feature (fit o nb dep fs) f start := by
  have hB := fit_adj_bounds o nb dep fs
  obtain ⟨h1, ⟨suf, hsuf⟩, h3⟩ := routeGo_spec (fit o nb dep fs) f
    ((fit o nb dep fs).order.length) hB ((fit o nb dep fs).order.length)
    start [start] (by omega)
  refine ⟨?_, h1, ?_⟩
  · rw [propagate_feature, hsuf, List.singleton_append]
    rfl
  · rw [propagate_feature, routeEnd]
    exact h3 (List.mem_singleton.2 rfl)

/-- C8: at a level of the greedy descent with a nonempty child list, the
child moved to (`.2.1` of the scan) splits the children into the earlier-
scanned ones, all at strictly larger Euclidean distance from the feature,
and the later ones at no smaller distance — i.e. it attains the strictly
smallest distance with ties kept by the earliest-scanned child — while every
scanned child is appended to the path.  The distance compared is
`Real.sqrt (distSq ...)`, the Euclidean norm of the difference between the
feature and the child's centroid (the source compares `np.linalg.norm`
values; `distSq` is the square, and squaring is strictly monotone on
nonnegatives). -/
theorem claim_c8 (st : St) (f : Feat) (node0 : Nat) (path : List Nat)
    (children : List Nat) (h : children ≠ []) :
    ∃ l1 c l2, children = l1 ++ c :: l2 ∧
      (scanChildren st f children none node0 path).2.1 = c ∧
      (scanChildren st f children none node0 path).2.2 = path ++ children ∧
      (∀ x ∈ children,
        Real.sqrt ((distSq st c f : ℝ)) ≤ Real.sqrt ((distSq st x f : ℝ))) ∧
      (∀ x ∈ l1,
        Real.sqrt ((distSq st c f : ℝ)) < Real.sqrt ((distSq st x f : ℝ))) := by
  obtain ⟨l1, c, l2, hsplit, hlt, hle, heq⟩ := selGo_none_spec st f children node0 h
  refine ⟨l1, c, l2, hsplit, ?_, ?_, ?_, ?_⟩
  · rw [scanChildren_eq, heq]
  · rw [scanChildren_eq]
  · intro x hx
    apply Real.sqrt_le_sqrt
    rw [hsplit] at hx
    rcases List.mem_append.1 hx with hx | hx
    · exact_mod_cast le_of_lt (hlt x hx)
    · rcases List.mem_cons.1 hx with rfl | hx
      · exact le_refl _
      · exact_mod_cast hle x hx
  · intro x hx
    apply Real.sqrt_lt_sqrt
    · exact_mod_cast distSq_nonneg st c f
    · exact_mod_cast hlt x hx

theorem claim_c8_witness :
    ([1, 2] : List Nat) ≠ [] ∧
    (∃ l1 c l2, ([1, 2] : List Nat) = l1 ++ c :: l2 ∧
      (scanChildren gEx [0] [1, 2] none 0 [0]).2.1 = c ∧
      (scanChildren gEx [0] [1, 2] none 0 [0]).2.2 = [0] ++ [1, 2] ∧
      (∀ x ∈ ([1, 2] : List Nat),
        Real.sqrt ((distSq gEx c [0] : ℝ)) ≤ Real.sqrt ((distSq gEx x [0] : ℝ))) ∧
      (∀ x ∈ l1,
        Real.sqrt ((distSq gEx c [0] : ℝ)) < Real.sqrt ((distSq gEx x [0] : ℝ)))) :=
  ⟨by decide, claim_c8 gEx [0] 0 [0] [1, 2] (by decide)⟩

/-- C2 counterexample: on the concrete state `stEx2` (image 7 indexed with
one feature, visiting nodes 0, 1 and 2), the encoded vector is defined (its
L1 norm, the total visit count, is nonzero), yet the self-score is `4/3`,
not 0: the vectors are L1-normalized, so `2 - 2·Σ v·v = 2 - 2·Σ v²` is not
the squared Euclidean distance between unit vectors. -/
theorem claim_c2_counterexample :
    totalVisits stEx2 7 ≠ 0 ∧ score stEx2 7 7 = 4 / 3 ∧ score stEx2 7 7 ≠ 0 :=
  ⟨by decide, by decide, by decide⟩

/-- C2 (amended): for every image whose encoded vector is defined (nonzero
total visit count), the self-score equals `2 − 2·Σᵢ vᵢ²`; it is always
nonnegative, and it is 0 exactly when `Σᵢ vᵢ² = 1`, i.e. when the
L1-normalized vector concentrates all its mass in a single entry — not for
every normalized vector, as the vectors are L1- rather than L2-normalized. -/
theorem claim_c2 (st : St) (img : Nat) (h : totalVisits st img ≠ 0) :
    score st img img = 2 - 2 * ((encode st img).map fun t => t * t).sum ∧
    0 ≤ score st img img ∧
    (score st img img = 0 ↔ ((encode st img).map fun t => t * t).sum = 1) := by
  have h1 : score st img img =
      2 - 2 * ((encode st img).map fun t => t * t).sum := by
    rw [score, zipWith_mul_self]
  have hsq : ((encode st img).map fun t => t * t).sum ≤ (encode st img).sum :=
    sum_sq_le_sum _ (encode_bounds st img h)
  have hsum := encode_sum_one st img h
  refine ⟨h1, ?_, ?_⟩
  · rw [h1]
    rw [hsum] at hsq
    linarith
  · rw [h1]
    constructor
    · intro h0
      linarith
    · intro hs
      rw [hs]
      ring

theorem claim_c2_witness :
    totalVisits stEx2 7 ≠ 0 ∧
    (score stEx2 7 7 = 2 - 2 * ((encode stEx2 7).map fun t => t * t).sum ∧
     0 ≤ score stEx2 7 7 ∧
     (score stEx2 7 7 = 0 ↔ ((encode stEx2 7).map fun t => t * t).sum = 1)) :=
  ⟨by decide, claim_c2 stEx2 7 (by decide)⟩

/-- C4: for an image with zero recorded visits at every graph node, the
tfidf vector `encode` builds is identically zero and the L1 norm it divides
by is exactly 0 — so the source, far from failing with a clear "image not
indexed" error, evaluates `0 / 0` entrywise, which numpy turns into a vector
of NaNs (with only a RuntimeWarning).  The claim describes the spec's
required behavior; the code does not implement it, so this is recorded as a
code bug, with this theorem pinning down what the code computes at the
failing input. -/
theorem claim_c4 (st : St) (img : Nat)
    (h : ∀ n ∈ st.order, visitCount st n img = 0) :
    l1normQ (tfidf st img) = 0 ∧
    tfidf st img = List.replicate st.order.length (0 : ℚ) := by
  have ht : tfidf st img = List.replicate st.order.length (0 : ℚ) := by
    rw [tfidf, List.eq_replicate_iff]
    constructor
    · rw [List.length_map]
    · intro b hb
      obtain ⟨n, hn, rfl⟩ := List.mem_map.1 hb
      rw [h n hn]
      rfl
  refine ⟨?_, ht⟩
  rw [l1normQ, ht]
  simp

theorem claim_c4_witness :
    (∀ n ∈ gEx.order, visitCount gEx n 99 = 0) ∧
    (l1normQ (tfidf gEx 99) = 0 ∧
     tfidf gEx 99 = List.replicate gEx.order.length (0 : ℚ)) :=
  ⟨by decide, claim_c4 gEx 99 (by decide)⟩

/-- C7: for any image with at least one recorded visit, the encoded vector
is exactly the per-node visit count divided by the total visit count (the
L1 norm of the raw vector), and its entries sum to exactly 1 in rational
arithmetic. -/
theorem claim_c7 (st : St) (img : Nat)
    (h : ∃ n ∈ st.order, visitCount st n img ≠ 0) :
    (encode st img).sum = 1 ∧
    encode st img = st.order.map fun n =>
      (visitCount st n img : ℚ) / (totalVisits st img : ℚ) := by
  have hT : totalVisits st img ≠ 0 := by
    intro hc
    rw [totalVisits] at hc
    obtain ⟨n, hn, hne⟩ := h
    exact hne (List.sum_eq_zero_iff.1 hc _ (List.mem_map_of_mem _ hn))
  exact ⟨encode_sum_one st img hT, encode_eq_div st img⟩

theorem claim_c7_witness :
    (∃ n ∈ stEx2.order, visitCount stEx2 n 7 ≠ 0) ∧
    ((encode stEx2 7).sum = 1 ∧
     encode stEx2 7 = stEx2.order.map fun n =>
       (visitCount stEx2 n 7 : ℚ) / (totalVisits stEx2 7 : ℚ)) :=
  ⟨by decide, claim_c7 stEx2 7 (by decide)⟩

/-- C10: propagating one image increments the root's (node 0's) visit count
for that image's id by exactly the number of its feature vectors, because
every path returned by the router begins with the start node 0 and — as no
node of the tree has the root as a child — contains it exactly once. -/
theorem claim_c10 (g : St) (im : Image)
    (h : ∀ p ∈ g.adjList, ∀ c ∈ p.2, 0 < c) :
    visitCount (propagate g im) 0 im.1 = visitCount g 0 im.1 + im.2.length := by
  have h2 : ∀ n c, c ∈ adjOf g n → 0 < c := adjOf_forall h
  obtain ⟨img, feats⟩ := im
  show visitCount (propagate g (img, feats)) 0 img = _
  rw [propagate]
  exact propagate_count_aux img feats g h2

theorem claim_c10_witness :
    (∀ p ∈ gEx.adjList, ∀ c ∈ p.2, 0 < c) ∧
    visitCount (propagate gEx (5, [[0], [10]])) 0 (5, ([[0], [10]] : List Feat)).1 =
      visitCount gEx 0 (5, ([[0], [10]] : List Feat)).1 +
        (5, ([[0], [10]] : List Feat)).2.length :=
  ⟨by decide, claim_c10 gEx (5, [[0], [10]]) (by decide)⟩

/-- C9: once a tree exists, `propagate`, `index` and `retrieve` leave every
part of the tree itself — the node list, the adjacency lists, the stored
centroid values, the build bookkeeping and the id counter — unchanged;
`propagate` and `retrieve` additionally leave the weights unchanged, so only
the visit dictionaries and (for `index`) the weights are ever mutated.
`score` and `encode` return values without producing a state at all. -/
theorem claim_c9 :
    (∀ (g : St) (im : Image),
      treeEq (propagate g im) g ∧ (propagate g im).wList = g.wList) ∧
    (∀ (g : St) (corpus : List Image), treeEq (index corpus g) g) ∧
    (∀ (g : St) (q : Image) (corpus : List Image),
      treeEq (retrieve g q corpus).1 g ∧
      ((retrieve g q corpus).1).wList = g.wList) := by
  refine ⟨fun g im => propagate_treeEq g im, ?_, fun g q corpus => propagate_treeEq g q⟩
  intro g corpus
  have h1 := corpus_fold_treeEq corpus g
  have h2 := (weightStep_foldl (corpus.length : ℚ)
    (corpus.foldl (fun s im => propagate s im) g).order
    (corpus.foldl (fun s im => propagate s im) g)).2.1
  exact treeEq_trans h2 h1.1

/-- C1: after the (sequential) `index` pass over a corpus of `N` images on a
tree with no weights yet assigned, every graph node with at least one
recorded visit carries the weight `ln(N / N_i)`, where `N_i` is the number
of keys of its visit dictionary — the count of distinct image ids, not the
sum of the visit counts — and every node with no recorded visit keeps the
default weight 1. -/
theorem claim_c1 (g : St) (corpus : List Image) (hw : g.wList = []) :
    ∀ n ∈ (index corpus g).order,
      (visitDict (index corpus g) n ≠ [] →
        wOf (index corpus g) n =
          some ((corpus.length : ℚ) / ((visitDict (index corpus g) n).length : ℚ)) ∧
        nodeWeight (index corpus g) n =
          Real.log ((corpus.length : ℝ) / ((visitDict (index corpus g) n).length : ℝ))) ∧
      (visitDict (index corpus g) n = [] →
        wOf (index corpus g) n = none ∧ nodeWeight (index corpus g) n = 1) := by
  have hidx : index corpus g =
      (corpus.foldl (fun s im => propagate s im) g).order.foldl
        (weightStep (corpus.length : ℚ))
        (corpus.foldl (fun s im => propagate s im) g) := rfl
  obtain ⟨hvis, htq, hwF⟩ := weightStep_foldl (corpus.length : ℚ)
    (corpus.foldl (fun s im => propagate s im) g).order
    (corpus.foldl (fun s im => propagate s im) g)
  have hg1w : (corpus.foldl (fun s im => propagate s im) g).wList = [] :=
    (corpus_fold_treeEq corpus g).2.trans hw
  intro n hn
  have hn2 : n ∈ (corpus.foldl (fun s im => propagate s im) g).order := by
    rw [hidx, htq.2.1] at hn
    exact hn
  have hdict : visitDict (index corpus g) n =
      visitDict (corpus.foldl (fun s im => propagate s im) g) n := by
    rw [hidx]
    exact visitDict_congr hvis n
  constructor
  · intro hne
    rw [hdict] at hne
    have hwn : wOf (index corpus g) n =
        some ((corpus.length : ℚ) /
          ((visitDict (corpus.foldl (fun s im => propagate s im) g) n).length : ℚ)) := by
      rw [hidx, hwF n, if_pos ⟨hn2, hne⟩]
    refine ⟨by rw [hdict, hwn], ?_⟩
    have hnw : nodeWeight (index corpus g) n =
        Real.log (((corpus.length : ℚ) /
          ((visitDict (corpus.foldl (fun s im => propagate s im) g) n).length : ℚ) : ℚ) : ℝ) := by
      unfold nodeWeight
      rw [hwn]
    rw [hnw, hdict]
    push_cast
    rfl
  · intro hemp
    rw [hdict] at hemp
    have hwn : wOf (index corpus g) n = none := by
      rw [hidx, hwF n, if_neg (fun hc => hc.2 hemp)]
      rw [wOf, hg1w]
      rfl
    refine ⟨hwn, ?_⟩
    unfold nodeWeight
    rw [hwn]

theorem claim_c1_witness :
    gEx.wList = [] ∧
    (∀ n ∈ (index [(7, [[0]])] gEx).order,
      (visitDict (index [(7, [[0]])] gEx) n ≠ [] →
        wOf (index [(7, [[0]])] gEx) n =
          some ((([(7, [[0]])] : List Image).length : ℚ) /
            ((visitDict (index [(7, [[0]])] gEx) n).length : ℚ)) ∧
        nodeWeight (index [(7, [[0]])] gEx) n =
          Real.log ((([(7, [[0]])] : List Image).length : ℝ) /
            ((visitDict (index [(7, [[0]])] gEx) n).length : ℝ))) ∧
      (visitDict (index [(7, [[0]])] gEx) n = [] →
        wOf (index [(7, [[0]])] gEx) n = none ∧
        nodeWeight (index [(7, [[0]])] gEx) n = 1)) :=
  ⟨by decide, claim_c1 gEx [(7, [[0]])] (by decide)⟩

end CBIR
